import Mathlib

/-!
Verification of the bibtex processor (src/bibtex_processor.py).

Strings are modelled as lists of characters; Python `str.lower` and
`str.strip` are modelled on the ASCII range (the identifiers and field
names handled by the program are ASCII).  The regular expression
`(10\.\d{4,9}/[-._;()/:A-Z0-9]+)` searched with `re.IGNORECASE` is
embedded as an executable leftmost, greedy matcher.
-/

/-- Strings are lists of characters. -/
abbrev Str := List Char

/-- Coerce a Lean string literal to the character-list model. -/
def str (s : String) : Str := s.data

/-- ASCII whitespace recognised by Python `str.strip`. -/
def isSpace (c : Char) : Bool :=
  c = ' ' || c = '\t' || c = '\n' || c = '\r' || c = '\x0b' || c = '\x0c'

/-- The regex class `\d` (ASCII digits). -/
def isDigitChar (c : Char) : Bool :=
  decide ('0' ≤ c) && decide (c ≤ '9')

/-- The regex class `[-._;()/:A-Z0-9]` under `re.IGNORECASE`:
letters of both cases, digits, and `- . _ ; ( ) / :`. -/
def isClassChar (c : Char) : Bool :=
  (decide ('a' ≤ c) && decide (c ≤ 'z')) || (decide ('A' ≤ c) && decide (c ≤ 'Z')) ||
  (decide ('0' ≤ c) && decide (c ≤ '9')) ||
  c = '-' || c = '.' || c = '_' || c = ';' || c = '(' || c = ')' || c = '/' || c = ':'

/-- Python `str.lower` on one ASCII character: map `A`-`Z` to the
letter 32 code points higher. -/
def pyLower (c : Char) : Char :=
  if 'A' ≤ c ∧ c ≤ 'Z' then Char.ofNat (c.toNat + 32) else c

/-- Python `str.lower` on a string. -/
def lowerStr (l : Str) : Str := l.map pyLower

/-- Python `str.strip`: drop leading and trailing whitespace. -/
def strip (l : Str) : Str :=
  ((l.dropWhile isSpace).reverse.dropWhile isSpace).reverse

/-- One backtracking attempt of the regex engine at a fixed start
position, with the repetition `\d{4,9}` fixed to exactly `k` digits:
`l3` is the text after the literal `10.`; the attempt succeeds when the
first `k` characters are digits, followed by `/` and at least one
character of the class, which the `+` then consumes greedily. -/
def tryK (l3 : Str) (k : Nat) : Option Str :=
  let ds := l3.take k
  if ds.length = k ∧ ds.all isDigitChar then
    match l3.drop k with
    | c :: rest =>
      if c = '/' then
        let run := rest.takeWhile isClassChar
        if run.isEmpty then none
        else some ('1' :: '0' :: '.' :: (ds ++ '/' :: run))
      else none
    | [] => none
  else none

/-- Greedy backtracking over the digit counts of `\d{4,9}`: the engine
tries the longest count first. -/
def tryKs (l3 : Str) : List Nat → Option Str
  | [] => none
  | k :: ks =>
    match tryK l3 k with
    | some m => some m
    | none => tryKs l3 ks

/-- Attempt to match `10\.\d{4,9}/[-._;()/:A-Z0-9]+` at the start of `l`. -/
def matchAt (l : Str) : Option Str :=
  match l with
  | c1 :: c2 :: c3 :: l3 =>
    if c1 = '1' ∧ c2 = '0' ∧ c3 = '.' then tryKs l3 [9, 8, 7, 6, 5, 4] else none
  | _ => none

/-- `re.search`: try each start position from the left, return the
first (leftmost) match. -/
def searchDoi : Str → Option Str
  | [] => none
  | c :: cs =>
    match matchAt (c :: cs) with
    | some m => some m
    | none => searchDoi cs

/-- normalize_doi (src/bibtex_processor.py lines 17-31): empty input
yields the empty string; otherwise the input is stripped and
lowercased, the DOI pattern is searched for, and the match is returned
when found, else the stripped lowercased input is the fallback. -/
def normalize_doi (s : Str) : Str :=
  if s.isEmpty then []
  else
    match searchDoi (lowerStr (strip s)) with
    | some m => m
    | none => lowerStr (strip s)

/-- normalize_doi lifted to an optional input: `None` (like the empty
string) is falsy in Python, so it also yields the empty string. -/
def normalize_doi_opt : Option Str → Str
  | none => []
  | some s => normalize_doi s

/-- The fallback branch of normalize_doi emits a `logging.warning`
diagnostic; this is exactly the nonempty-input, no-match path. -/
def normalize_doi_warns (s : Str) : Bool :=
  !s.isEmpty && (searchDoi (lowerStr (strip s))).isNone

/-- A whole string is exactly of the identifier form of the spec: the
literal `10.`, then 4-9 digits, then `/`, then one or more characters
from {letters, digits, `-`, `.`, `_`, `;`, `(`, `)`, `/`, `:`}. -/
def isDoiForm (m : Str) : Bool :=
  match m with
  | c1 :: c2 :: c3 :: l3 =>
    decide (c1 = '1') && decide (c2 = '0') && decide (c3 = '.') &&
      ([4, 5, 6, 7, 8, 9].any fun k =>
        decide ((l3.take k).length = k) && (l3.take k).all isDigitChar &&
        (match l3.drop k with
         | c :: rest => decide (c = '/') && !rest.isEmpty && rest.all isClassChar
         | [] => false))
  | _ => false

/-- A parsed BibTeX entry as produced by bibtexparser: the special
keys `ID` and `ENTRYTYPE` (absent when the parser could not supply
them, mirroring `entry.get` returning `None`), plus the remaining
field dictionary in insertion order with unique keys. -/
structure BibEntry where
  ID : Option Str
  ENTRYTYPE : Option Str
  fields : List (Str × Str)
deriving DecidableEq, Repr

/-- Python truthiness of `entry.get(...)`: `None` and the empty string
are falsy. -/
def truthy : Option Str → Bool
  | none => false
  | some s => !s.isEmpty

/-- Python dict insertion on an association list: overwrite in place
when the key exists, else append. -/
def insertD (m : List (Str × Str)) (k v : Str) : List (Str × Str) :=
  if (List.lookup k m).isSome then
    m.map fun p => if p.1 = k then (k, v) else p
  else m ++ [(k, v)]

/-- The dict comprehension `{k.lower(): v for k, v in entry.items()}`
over the non-ID/ENTRYTYPE items (later keys win on collision). -/
def lowerKeys (fs : List (Str × Str)) : List (Str × Str) :=
  fs.foldl (fun m p => insertD m (lowerStr p.1) p.2) []

/-- The `essential_fields` list of standardize_bibtex_file (line 83). -/
def essentialFields : List Str :=
  [str "doi", str "title", str "abstract", str "keywords", str "author",
   str "year", str "publisher", str "journal", str "booktitle",
   str "pages", str "volume", str "number"]

/-- The loop filling every missing essential field with the empty
string (lines 84-86). -/
def fillDefaults (fs : List Str) (m : List (Str × Str)) : List (Str × Str) :=
  fs.foldl (fun m f => if (List.lookup f m).isSome then m else insertD m f []) m

/-- Build the standardized entry for one raw entry (lines 76-101):
lowercase the field names, normalize the DOI, default the essential
fields, apply the journal/booktitle fallback, and emit the final entry
with the original ID and ENTRYTYPE and the essential fields in their
fixed order. -/
def mkCanonical (e : BibEntry) : BibEntry :=
  let d0 := lowerKeys e.fields
  let rawDoi := (List.lookup (str "doi") d0).getD []
  let d1 := insertD d0 (str "doi") (normalize_doi rawDoi)
  let d2 := fillDefaults essentialFields d1
  let d3 :=
    if (List.lookup (str "journal") d2).getD [] = [] ∧
       (List.lookup (str "booktitle") d2).getD [] ≠ [] then
      insertD d2 (str "journal") ((List.lookup (str "booktitle") d2).getD [])
    else d2
  { ID := e.ID
    ENTRYTYPE := e.ENTRYTYPE
    fields := essentialFields.map fun f => (f, (List.lookup f d3).getD []) }

/-- The per-entry loop of standardize_bibtex_file (lines 60-108) with
the accumulated `processed_ids` set: entries without a truthy ID or
ENTRYTYPE are skipped, a repeated ID is skipped, and every other entry
contributes its standardized form. -/
def stdGo (processed : List Str) : List BibEntry → List BibEntry
  | [] => []
  | e :: rest =>
    if truthy e.ID ∧ truthy e.ENTRYTYPE then
      if e.ID.getD [] ∈ processed then stdGo processed rest
      else mkCanonical e :: stdGo (e.ID.getD [] :: processed) rest
    else stdGo processed rest

/-- standardize_bibtex_file (lines 34-128) restricted to its
entry-processing core; reading and writing the BibTeX files is I/O
plumbing outside the data model. -/
def standardize_bibtex_file (entries : List BibEntry) : List BibEntry :=
  stdGo [] entries

/-- `entry.get('doi', '')`: the doi field of an entry, empty when
absent. -/
def doiOf (e : BibEntry) : Str :=
  (List.lookup (str "doi") e.fields).getD []

/-- The set `dois_y` built by remove_duplicates_by_doi (lines
161-166): the stripped doi of every entry of Y, skipping empty ones;
modelled as the list of its members. -/
def doiSet (y : List BibEntry) : List Str :=
  (y.map fun e => strip (doiOf e)).filter fun d => !d.isEmpty

/-- The filtering loop of remove_duplicates_by_doi (lines 174-188)
with the accumulated `processed_ids_x` set: an entry whose ID was seen
before is skipped; otherwise it is kept exactly when its stripped doi
is empty or not among the dois of Y. -/
def dedupGo (ds : List Str) (processed : List (Option Str)) : List BibEntry → List BibEntry
  | [] => []
  | e :: rest =>
    if e.ID ∈ processed then dedupGo ds processed rest
    else
      if strip (doiOf e) = [] ∨ ¬ strip (doiOf e) ∈ ds then
        e :: dedupGo ds (e.ID :: processed) rest
      else dedupGo ds (e.ID :: processed) rest

/-- remove_duplicates_by_doi (lines 132-203) restricted to its
entry-processing core (file loading and writing are I/O plumbing):
drop from X every entry whose doi occurs in Y. -/
def remove_duplicates_by_doi (x y : List BibEntry) : List BibEntry :=
  dedupGo (doiSet y) [] x

/-- The record set X of the C1 scenario. -/
def c1X : List BibEntry :=
  [⟨some (str "a"), some (str "article"), [(str "doi", str "10.1234/example.doi")]⟩]

/-- The record set Y of the C1 scenario. -/
def c1Y : List BibEntry :=
  [⟨some (str "b"), some (str "article"),
    [(str "doi", str "https://doi.org/10.1234/EXAMPLE.DOI")]⟩]

/-- The eleven-field list named by the claim (no booktitle); the
normalized-identifier field is the doi field. -/
def claimedElevenFields : List Str :=
  [str "doi", str "title", str "abstract", str "keywords", str "author",
   str "year", str "publisher", str "journal", str "pages", str "volume", str "number"]

/-- Concrete raw entry for the C2 witness. -/
def w2raw : BibEntry :=
  ⟨some (str "w"), some (str "article"), [(str "TITLE", str "T")]⟩

/-- First witness record set for C4. -/
def w4x : List BibEntry :=
  [⟨some (str "a"), none, [(str "doi", str "10.1234/x")]⟩,
   ⟨some (str "b"), none, []⟩]

/-- Second witness record set for C4. -/
def w4y : List BibEntry :=
  [⟨some (str "c"), none, [(str "doi", str "10.1234/x")]⟩]

/-- Witness first identifier-less record for C9. -/
def w9a : BibEntry := ⟨none, none, []⟩

/-- Witness later identifier-less record for C9. -/
def w9b : BibEntry := ⟨none, none, [(str "doi", str "10.9999/later")]⟩

/-- Witness whitespace-doi record in x for C10. -/
def w10a : BibEntry := ⟨some (str "a"), none, [(str "doi", str "   ")]⟩

/-- Witness whitespace-doi record in y for C10. -/
def w10b : BibEntry := ⟨some (str "c"), none, [(str "doi", str " ")]⟩

/-- Witness first duplicate record for C6. -/
def w6e1 : BibEntry := ⟨some (str "d"), some (str "article"), [(str "title", str "A")]⟩

/-- Witness second duplicate record for C6. -/
def w6e2 : BibEntry := ⟨some (str "d"), some (str "misc"), [(str "title", str "B")]⟩

/-- Witness well-formed record before the bad one for C8. -/
def w8p : BibEntry := ⟨some (str "p"), some (str "article"), []⟩

/-- Witness well-formed record after the bad one for C8. -/
def w8q : BibEntry := ⟨some (str "q"), some (str "article"), []⟩

/-- Witness record missing its type tag for C8. -/
def w8bad : BibEntry := ⟨some (str "x"), none, [(str "title", str "T")]⟩

/-! ### Association-list lemmas for the standardizer dictionaries -/

theorem lookup_overwrite_self (m : List (Str × Str)) (k v : Str)
    (h : (List.lookup k m).isSome) :
    List.lookup k (m.map fun p => if p.1 = k then (k, v) else p) = some v := by
  induction m with
  | nil => simp at h
  | cons p rest ih =>
    obtain ⟨a, b⟩ := p
    by_cases ha : a = k
    · subst ha
      have hhead : (if ((a, b) : Str × Str).1 = a then (a, v) else (a, b)) = (a, v) := by
        simp
      simp only [List.map_cons, hhead]
      simp [List.lookup]
    · have hb : (k == a) = false := by simpa using fun hh => ha hh.symm
      have hhead : (if ((a, b) : Str × Str).1 = k then (k, v) else (a, b)) = (a, b) := by
        simp [ha]
      simp only [List.lookup, hb] at h
      simp only [List.map_cons, hhead]
      simp only [List.lookup, hb]
      exact ih h

theorem lookup_overwrite_ne (m : List (Str × Str)) (k v k' : Str) (h : k' ≠ k) :
    List.lookup k' (m.map fun p => if p.1 = k then (k, v) else p) = List.lookup k' m := by
  have hb : (k' == k) = false := by simpa using h
  induction m with
  | nil => simp
  | cons p rest ih =>
    obtain ⟨a, b⟩ := p
    by_cases ha : a = k
    · subst ha
      have hhead : (if ((a, b) : Str × Str).1 = a then (a, v) else (a, b)) = (a, v) := by
        simp
      simp only [List.map_cons, hhead]
      simp only [List.lookup, hb]
      exact ih
    · have hhead : (if ((a, b) : Str × Str).1 = k then (k, v) else (a, b)) = (a, b) := by
        simp [ha]
      simp only [List.map_cons, hhead]
      by_cases ha' : k' = a
      · subst ha'
        simp [List.lookup]
      · have hb' : (k' == a) = false := by simpa using ha'
        simp only [List.lookup, hb']
        exact ih

theorem lookup_append_single_self (m : List (Str × Str)) (k v : Str)
    (h : List.lookup k m = none) :
    List.lookup k (m ++ [(k, v)]) = some v := by
  induction m with
  | nil => simp [List.lookup]
  | cons p rest ih =>
    obtain ⟨a, b⟩ := p
    by_cases ha : k = a
    · subst ha
      simp [List.lookup] at h
    · have hb : (k == a) = false := by simpa using ha
      simp only [List.lookup, hb] at h
      simp only [List.cons_append, List.lookup, hb]
      exact ih h

theorem lookup_append_single_ne (m : List (Str × Str)) (k v k' : Str) (h : k' ≠ k) :
    List.lookup k' (m ++ [(k, v)]) = List.lookup k' m := by
  have hb : (k' == k) = false := by simpa using h
  induction m with
  | nil => simp [List.lookup, hb]
  | cons p rest ih =>
    obtain ⟨a, b⟩ := p
    by_cases ha : k' = a
    · subst ha
      simp [List.lookup]
    · have hb' : (k' == a) = false := by simpa using ha
      simp only [List.cons_append, List.lookup, hb']
      exact ih

theorem lookup_insertD_self (m : List (Str × Str)) (k v : Str) :
    List.lookup k (insertD m k v) = some v := by
  unfold insertD
  by_cases h : (List.lookup k m).isSome
  · simp only [h, if_true]
    exact lookup_overwrite_self m k v h
  · have h' : List.lookup k m = none := by
      cases hh : List.lookup k m with
      | none => rfl
      | some w => simp [hh] at h
    simp only [h, Bool.false_eq_true, if_false]
    exact lookup_append_single_self m k v h'

theorem lookup_insertD_ne (m : List (Str × Str)) (k v k' : Str) (h : k' ≠ k) :
    List.lookup k' (insertD m k v) = List.lookup k' m := by
  unfold insertD
  by_cases hs : (List.lookup k m).isSome
  · simp only [hs, if_true]
    exact lookup_overwrite_ne m k v k' h
  · simp only [hs, Bool.false_eq_true, if_false]
    exact lookup_append_single_ne m k v k' h

theorem lookup_fillDefaults_some (fs : List Str) (m : List (Str × Str)) (f v : Str)
    (h : List.lookup f m = some v) :
    List.lookup f (fillDefaults fs m) = some v := by
  induction fs generalizing m with
  | nil => simpa [fillDefaults] using h
  | cons g gs ih =>
    simp only [fillDefaults, List.foldl_cons]
    by_cases hg : (List.lookup g m).isSome
    · simp only [hg, if_true]
      exact ih m h
    · simp only [hg, Bool.false_eq_true, if_false]
      have hfg : f ≠ g := by
        intro hh
        subst hh
        simp [h] at hg
      exact ih _ (by rw [lookup_insertD_ne m g [] f hfg]; exact h)

theorem lookup_fillDefaults_mem (fs : List Str) (m : List (Str × Str)) (f : Str)
    (hf : f ∈ fs) :
    List.lookup f (fillDefaults fs m) = some ((List.lookup f m).getD []) := by
  induction fs generalizing m with
  | nil => simp at hf
  | cons g gs ih =>
    simp only [fillDefaults, List.foldl_cons]
    by_cases hfg : f = g
    · subst hfg
      cases hl : List.lookup f m with
      | some v =>
        have hg : (List.lookup f m).isSome := by simp [hl]
        simp only [hg, if_true, hl, Option.getD_some]
        have : List.lookup f (fillDefaults gs m) = some v := lookup_fillDefaults_some gs m f v hl
        simpa [fillDefaults] using this
      | none =>
        have hg : (List.lookup f m).isSome = false := by simp [hl]
        simp only [hg, Bool.false_eq_true, if_false, hl, Option.getD_none]
        have h1 : List.lookup f (insertD m f []) = some [] := lookup_insertD_self m f []
        have : List.lookup f (fillDefaults gs (insertD m f [])) = some [] :=
          lookup_fillDefaults_some gs _ f [] h1
        simpa [fillDefaults] using this
    · have hstep : ∀ m' : List (Str × Str),
          List.lookup f (if (List.lookup g m').isSome then m' else insertD m' g []) =
            List.lookup f m' := by
        intro m'
        by_cases hg : (List.lookup g m').isSome
        · simp [hg]
        · simp only [hg, Bool.false_eq_true, if_false]
          exact lookup_insertD_ne m' g [] f hfg
      have hf' : f ∈ gs := by
        rcases List.mem_cons.mp hf with h1 | h1
        · exact absurd h1 hfg
        · exact h1
      calc List.lookup f (fillDefaults gs (if (List.lookup g m).isSome then m else insertD m g []))
          = some ((List.lookup f (if (List.lookup g m).isSome then m else insertD m g [])).getD []) :=
            ih _ hf'
        _ = some ((List.lookup f m).getD []) := by rw [hstep m]

theorem lookup_lowerKeys_aux (fs : List (Str × Str)) (m : List (Str × Str)) (f : Str)
    (hm : List.lookup f m = none) (h : ∀ p ∈ fs, lowerStr p.1 ≠ f) :
    List.lookup f (fs.foldl (fun m p => insertD m (lowerStr p.1) p.2) m) = none := by
  induction fs generalizing m with
  | nil => simpa using hm
  | cons p ps ih =>
    simp only [List.foldl_cons]
    refine ih _ ?_ ?_
    · rw [lookup_insertD_ne m (lowerStr p.1) p.2 f fun hh => h p (by simp) hh.symm]
      exact hm
    · intro q hq
      exact h q (List.mem_cons_of_mem p hq)

theorem lookup_lowerKeys_none (fs : List (Str × Str)) (f : Str)
    (h : ∀ p ∈ fs, lowerStr p.1 ≠ f) :
    List.lookup f (lowerKeys fs) = none :=
  lookup_lowerKeys_aux fs [] f rfl h

theorem lookup_map_pair (fs : List Str) (g : Str → Str) (f : Str) (hf : f ∈ fs) :
    List.lookup f (fs.map fun x => (x, g x)) = some (g f) := by
  induction fs with
  | nil => simp at hf
  | cons x xs ih =>
    by_cases hx : f = x
    · subst hx
      simp [List.lookup]
    · have hb : (f == x) = false := by simpa using hx
      have hf' : f ∈ xs := by
        rcases List.mem_cons.mp hf with h1 | h1
        · exact absurd h1 hx
        · exact h1
      simp only [List.map_cons, List.lookup, hb]
      exact ih hf'

/-! ### Shape of standardized entries -/

theorem mkCanonical_fields_fst (e : BibEntry) :
    (mkCanonical e).fields.map Prod.fst = essentialFields := by
  simp only [mkCanonical, List.map_map]
  exact List.map_id essentialFields

theorem mkCanonical_default (e : BibEntry) (f : Str) (hf : f ∈ essentialFields)
    (habs : ∀ p ∈ e.fields, lowerStr p.1 ≠ f) (hnj : f ≠ str "journal") :
    List.lookup f (mkCanonical e).fields = some [] := by
  have h0 : List.lookup f (lowerKeys e.fields) = none := lookup_lowerKeys_none e.fields f habs
  simp only [mkCanonical]
  rw [lookup_map_pair essentialFields _ f hf]
  have h1 : List.lookup f
      (insertD (lowerKeys e.fields) (str "doi")
        (normalize_doi ((List.lookup (str "doi") (lowerKeys e.fields)).getD []))) = none ∨
      List.lookup f
      (insertD (lowerKeys e.fields) (str "doi")
        (normalize_doi ((List.lookup (str "doi") (lowerKeys e.fields)).getD []))) = some [] := by
    by_cases hdoi : f = str "doi"
    · subst hdoi
      right
      rw [lookup_insertD_self]
      rw [h0]
      rfl
    · left
      rw [lookup_insertD_ne _ _ _ f hdoi]
      exact h0
  have h2 : List.lookup f
      (fillDefaults essentialFields
        (insertD (lowerKeys e.fields) (str "doi")
          (normalize_doi ((List.lookup (str "doi") (lowerKeys e.fields)).getD [])))) = some [] := by
    have hmem := lookup_fillDefaults_mem essentialFields
      (insertD (lowerKeys e.fields) (str "doi")
        (normalize_doi ((List.lookup (str "doi") (lowerKeys e.fields)).getD []))) f hf
    rcases h1 with h1 | h1 <;> rw [h1] at hmem <;> simpa using hmem
  split
  · rw [lookup_insertD_ne _ _ _ f hnj, h2]
    rfl
  · rw [h2]
    rfl

theorem stdGo_shape (entries : List BibEntry) :
    ∀ (processed : List Str) (ce : BibEntry), ce ∈ stdGo processed entries →
      ∃ e, ce = mkCanonical e := by
  induction entries with
  | nil => intro processed ce h; simp [stdGo] at h
  | cons e rest ih =>
    intro processed ce h
    by_cases h1 : truthy e.ID ∧ truthy e.ENTRYTYPE
    · by_cases h2 : e.ID.getD [] ∈ processed
      · rw [stdGo, if_pos h1, if_pos h2] at h
        exact ih processed ce h
      · rw [stdGo, if_pos h1, if_neg h2] at h
        rcases List.mem_cons.mp h with h3 | h3
        · exact ⟨e, h3⟩
        · exact ih _ ce h3
    · rw [stdGo, if_neg h1] at h
      exact ih processed ce h

/-! ### Claim C1: the deduplication scenario of the spec -/

/-- C1, counterexample: fed the scenario's records directly,
remove_duplicates_by_doi compares the doi fields by exact string
equality, so the URL-embedded upper-case doi of Y does not match and X
is returned unchanged — not the empty sequence the claim states. -/
theorem c1_counterexample :
    remove_duplicates_by_doi c1X c1Y = c1X ∧ c1X ≠ ([] : List BibEntry) := by decide

/-- C1, amended: remove_duplicates_by_doi assumes its inputs were
already standardized (its docstring states this and the pipeline runs
standardize_bibtex_file first).  After standardization — which
normalizes Y's identifier out of the resolver URL and lowercases it —
the deduplication of the scenario returns the empty sequence. -/
theorem c1_theorem :
    remove_duplicates_by_doi (standardize_bibtex_file c1X) (standardize_bibtex_file c1Y)
      = [] := by decide

/-! ### Claim C2: the canonical field set -/

/-- C2, counterexample: the canonical record built from a raw record
with no fields carries the twelve essential fields of the code —
including booktitle between journal and pages — not the eleven fields
the claim lists. -/
theorem c2_counterexample :
    (standardize_bibtex_file [⟨some (str "a"), some (str "article"), []⟩]).map
      (fun ce => ce.fields.map Prod.fst) = [essentialFields] ∧
    essentialFields ≠ claimedElevenFields := by decide

/-- C2, amended: every canonical record produced by the standardizer
has exactly the twelve semantic fields doi, title, abstract, keywords,
author, year, publisher, journal, booktitle, pages, volume, number, in
this fixed order, regardless of the raw record's fields; every
essential field other than journal that is absent from the raw record
(after field names are lowercased) is defaulted to the empty string
(journal may instead receive the booktitle value by the fallback). -/
theorem c2_theorem (entries : List BibEntry) (ce : BibEntry)
    (hce : ce ∈ standardize_bibtex_file entries)
    (e : BibEntry) (f : Str) (hf : f ∈ essentialFields)
    (habs : ∀ p ∈ e.fields, lowerStr p.1 ≠ f) (hnj : f ≠ str "journal") :
    ce.fields.map Prod.fst = essentialFields ∧
    List.lookup f (mkCanonical e).fields = some [] := by
  constructor
  · obtain ⟨e0, he0⟩ := stdGo_shape entries [] ce hce
    rw [he0]
    exact mkCanonical_fields_fst e0
  · exact mkCanonical_default e f hf habs hnj

/-- C2 witness: instantiation of the amended claim on a concrete
record whose abstract field is absent. -/
theorem c2_witness :
    (mkCanonical w2raw).fields.map Prod.fst = essentialFields ∧
    List.lookup (str "abstract") (mkCanonical w2raw).fields = some [] :=
  c2_theorem [w2raw] (mkCanonical w2raw) (by decide) w2raw (str "abstract")
    (by decide) (by decide) (by decide)

/-! ### Deduplication lemmas -/

theorem dedupGo_eq_filter (ds : List Str) (x : List BibEntry) :
    ∀ processed : List (Option Str), (∀ e ∈ x, ¬ e.ID ∈ processed) →
      (x.map BibEntry.ID).Nodup →
      dedupGo ds processed x =
        x.filter fun e => decide (strip (doiOf e) = [] ∨ ¬ strip (doiOf e) ∈ ds) := by
  induction x with
  | nil => intro processed _ _; rfl
  | cons e rest ih =>
    intro processed hfresh hnd
    have he : ¬ e.ID ∈ processed := hfresh e (by simp)
    have hid : e.ID ∉ rest.map BibEntry.ID := (List.nodup_cons.mp (by simpa using hnd)).1
    have hnd' : (rest.map BibEntry.ID).Nodup := (List.nodup_cons.mp (by simpa using hnd)).2
    have hfresh' : ∀ e' ∈ rest, ¬ e'.ID ∈ (e.ID :: processed) := by
      intro e' he' hmem
      rcases List.mem_cons.mp hmem with h1 | h1
      · exact hid (h1 ▸ List.mem_map_of_mem BibEntry.ID he')
      · exact hfresh e' (List.mem_cons_of_mem e he') h1
    rw [dedupGo, if_neg he, List.filter_cons]
    by_cases hkeep : strip (doiOf e) = [] ∨ ¬ strip (doiOf e) ∈ ds
    · rw [if_pos hkeep, if_pos (by simpa using hkeep)]
      rw [ih _ hfresh' hnd']
    · rw [if_neg hkeep, if_neg (by simpa using hkeep)]
      rw [ih _ hfresh' hnd']

theorem dedupGo_skip (ds : List Str) (l1 : List BibEntry) :
    ∀ (processed : List (Option Str)) (a : BibEntry) (l2 : List BibEntry),
      (a.ID ∈ processed ∨ ∃ e ∈ l1, e.ID = a.ID) →
      dedupGo ds processed (l1 ++ a :: l2) = dedupGo ds processed (l1 ++ l2) := by
  induction l1 with
  | nil =>
    intro processed a l2 h
    rcases h with h | h
    · simp [dedupGo, h]
    · simp at h
  | cons e l1 ih =>
    intro processed a l2 h
    have hstep : ∀ processed' : List (Option Str),
        (a.ID ∈ processed' ∨ ∃ e' ∈ l1, e'.ID = a.ID) →
        dedupGo ds processed' (l1 ++ a :: l2) = dedupGo ds processed' (l1 ++ l2) := by
      intro processed' h'
      exact ih processed' a l2 h'
    simp only [List.cons_append, dedupGo]
    by_cases h1 : e.ID ∈ processed
    · rw [if_pos h1, if_pos h1]
      apply hstep
      rcases h with h | h
      · exact Or.inl h
      · rcases h with ⟨e', he', heq⟩
        rcases List.mem_cons.mp he' with h2 | h2
        · exact Or.inl (by rw [← heq, h2]; exact h1)
        · exact Or.inr ⟨e', h2, heq⟩
    · rw [if_neg h1, if_neg h1]
      have hnext : a.ID ∈ (e.ID :: processed) ∨ ∃ e' ∈ l1, e'.ID = a.ID := by
        rcases h with h | h
        · exact Or.inl (List.mem_cons_of_mem _ h)
        · rcases h with ⟨e', he', heq⟩
          rcases List.mem_cons.mp he' with h2 | h2
          · exact Or.inl (by rw [← heq, h2]; exact List.mem_cons_self _ _)
          · exact Or.inr ⟨e', h2, heq⟩
      by_cases h2 : strip (doiOf e) = [] ∨ ¬ strip (doiOf e) ∈ ds
      · rw [if_pos h2, if_pos h2]
        simp only [List.append_eq]
        rw [hstep _ hnext]
      · rw [if_neg h2, if_neg h2]
        simp only [List.append_eq]
        rw [hstep _ hnext]

theorem strip_eq_nil_of_space (l : Str) (h : ∀ c ∈ l, isSpace c = true) :
    strip l = [] := by
  have h1 : l.dropWhile isSpace = [] := List.dropWhile_eq_nil_iff.mpr h
  simp [strip, h1]

/-! ### Claims C4, C9, C10: the deduplicator -/

/-- C4: on record sets (distinct entry IDs, as the data model
guarantees, and doi fields already stripped, as canonical records
are), remove_duplicates_by_doi returns exactly the records of x, in
input order, whose identifier is empty or does not occur among the
non-empty identifiers of y; in particular when every record of x has
an empty identifier, x is returned unchanged. -/
theorem c4_theorem (x y : List BibEntry)
    (hnd : (x.map BibEntry.ID).Nodup)
    (hx : ∀ e ∈ x, strip (doiOf e) = doiOf e)
    (hy : ∀ e ∈ y, strip (doiOf e) = doiOf e) :
    remove_duplicates_by_doi x y =
      (x.filter fun e =>
        decide (doiOf e = [] ∨ ¬ doiOf e ∈ (y.map doiOf).filter fun d => !d.isEmpty)) ∧
    ((∀ e ∈ x, doiOf e = []) → remove_duplicates_by_doi x y = x) := by
  have hset : doiSet y = (y.map doiOf).filter fun d => !d.isEmpty := by
    unfold doiSet
    rw [List.map_congr_left hy]
  have hmain : remove_duplicates_by_doi x y =
      x.filter fun e => decide (doiOf e = [] ∨ ¬ doiOf e ∈ doiSet y) := by
    unfold remove_duplicates_by_doi
    rw [dedupGo_eq_filter (doiSet y) x [] (by simp) hnd]
    exact List.filter_congr fun e he => by rw [hx e he]
  constructor
  · rw [hmain, hset]
  · intro hall
    rw [hmain]
    apply List.filter_eq_self.mpr
    intro e he
    simp [hall e he]

/-- C4 witness: concrete instantiation — the record sharing the doi
with y is dropped, the identifier-less one is kept. -/
theorem c4_witness :
    remove_duplicates_by_doi w4x w4y =
      (w4x.filter fun e =>
        decide (doiOf e = [] ∨ ¬ doiOf e ∈ (w4y.map doiOf).filter fun d => !d.isEmpty)) ∧
    ((∀ e ∈ w4x, doiOf e = []) → remove_duplicates_by_doi w4x w4y = w4x) :=
  c4_theorem w4x w4y (by decide) (by decide) (by decide)

/-- C9: when x contains an identifier-less record after an earlier
identifier-less record, the later one is dropped by the within-x
duplicate guard — the absent identifier of both maps to the same
sentinel (`entry.get('ID')` returning None) in the seen set — so
removing it from the input does not change the output. -/
theorem c9_theorem (pre post y : List BibEntry) (a : BibEntry)
    (ha : a.ID = none) (hpre : ∃ e ∈ pre, e.ID = none) :
    remove_duplicates_by_doi (pre ++ a :: post) y =
      remove_duplicates_by_doi (pre ++ post) y := by
  unfold remove_duplicates_by_doi
  apply dedupGo_skip
  right
  rcases hpre with ⟨e, he, hid⟩
  exact ⟨e, he, by rw [hid, ha]⟩

/-- C9 witness: concrete instantiation with two identifier-less
records. -/
theorem c9_witness :
    remove_duplicates_by_doi ([w9a] ++ w9b :: []) [] =
      remove_duplicates_by_doi ([w9a] ++ []) [] :=
  c9_theorem [w9a] [] [] w9b (by decide) (by decide)

/-- C10: a whitespace-only identifier is treated as empty on both
sides of the deduplication — such a record in x (with the record-set
distinct-ID invariant) is kept, and such a record in y contributes
nothing to y's identifier set — because identifiers are stripped
before the membership test. -/
theorem c10_theorem (x y1 y2 : List BibEntry) (a b : BibEntry)
    (hnd : (x.map BibEntry.ID).Nodup) (ha : a ∈ x)
    (hwsa : ∀ c ∈ doiOf a, isSpace c = true)
    (hwsb : ∀ c ∈ doiOf b, isSpace c = true) :
    a ∈ remove_duplicates_by_doi x (y1 ++ b :: y2) ∧
    doiSet (y1 ++ b :: y2) = doiSet (y1 ++ y2) := by
  have hsa : strip (doiOf a) = [] := strip_eq_nil_of_space _ hwsa
  have hsb : strip (doiOf b) = [] := strip_eq_nil_of_space _ hwsb
  constructor
  · unfold remove_duplicates_by_doi
    rw [dedupGo_eq_filter _ x [] (by simp) hnd]
    exact List.mem_filter.mpr ⟨ha, by simp [hsa]⟩
  · unfold doiSet
    simp [List.map_append, List.filter_append, List.map_cons, List.filter_cons, hsb]

/-- C10 witness: concrete instantiation with whitespace-only doi
fields on both sides. -/
theorem c10_witness :
    w10a ∈ remove_duplicates_by_doi [w10a] ([] ++ w10b :: []) ∧
    doiSet ([] ++ w10b :: []) = doiSet ([] ++ []) :=
  c10_theorem [w10a] [] [] w10a w10b (by decide) (by decide) (by decide) (by decide)

/-! ### Standardizer skip lemmas -/

theorem truthy_some (o : Option Str) (h : truthy o = true) :
    ∃ s, o = some s ∧ o.getD [] = s := by
  cases o with
  | none => simp [truthy] at h
  | some s => exact ⟨s, rfl, rfl⟩

theorem stdGo_skip_bad (l1 : List BibEntry) :
    ∀ (processed : List Str) (bad : BibEntry) (l2 : List BibEntry),
      ¬ (truthy bad.ID ∧ truthy bad.ENTRYTYPE) →
      stdGo processed (l1 ++ bad :: l2) = stdGo processed (l1 ++ l2) := by
  induction l1 with
  | nil =>
    intro processed bad l2 h
    rw [List.nil_append, List.nil_append, stdGo, if_neg h]
  | cons e l1 ih =>
    intro processed bad l2 h
    rw [List.cons_append, List.cons_append, stdGo, stdGo]
    by_cases h1 : truthy e.ID ∧ truthy e.ENTRYTYPE
    · rw [if_pos h1, if_pos h1]
      by_cases h2 : e.ID.getD [] ∈ processed
      · rw [if_pos h2, if_pos h2, ih processed bad l2 h]
      · rw [if_neg h2, if_neg h2, ih _ bad l2 h]
    · rw [if_neg h1, if_neg h1, ih processed bad l2 h]

theorem stdGo_skip_dup (l1 : List BibEntry) :
    ∀ (processed : List Str) (a : BibEntry) (l2 : List BibEntry),
      truthy a.ID = true →
      (a.ID.getD [] ∈ processed ∨
        ∃ e ∈ l1, (truthy e.ID ∧ truthy e.ENTRYTYPE) ∧ e.ID = a.ID) →
      stdGo processed (l1 ++ a :: l2) = stdGo processed (l1 ++ l2) := by
  induction l1 with
  | nil =>
    intro processed a l2 ha h
    rcases h with h | h
    · rw [List.nil_append, List.nil_append, stdGo]
      by_cases h1 : truthy a.ID ∧ truthy a.ENTRYTYPE
      · rw [if_pos h1, if_pos h]
      · rw [if_neg h1]
    · simp at h
  | cons e l1 ih =>
    intro processed a l2 ha h
    rw [List.cons_append, List.cons_append, stdGo, stdGo]
    by_cases h1 : truthy e.ID ∧ truthy e.ENTRYTYPE
    · rw [if_pos h1, if_pos h1]
      by_cases h2 : e.ID.getD [] ∈ processed
      · rw [if_pos h2, if_pos h2]
        apply ih processed a l2 ha
        rcases h with h | h
        · exact Or.inl h
        · rcases h with ⟨e', he', hgood', heq'⟩
          rcases List.mem_cons.mp he' with h3 | h3
          · left
            rw [← heq', h3]
            exact h2
          · exact Or.inr ⟨e', h3, hgood', heq'⟩
      · rw [if_neg h2, if_neg h2]
        congr 1
        apply ih _ a l2 ha
        rcases h with h | h
        · exact Or.inl (List.mem_cons_of_mem _ h)
        · rcases h with ⟨e', he', hgood', heq'⟩
          rcases List.mem_cons.mp he' with h3 | h3
          · left
            rw [← heq', h3]
            exact List.mem_cons_self _ _
          · exact Or.inr ⟨e', h3, hgood', heq'⟩
    · rw [if_neg h1, if_neg h1]
      apply ih processed a l2 ha
      rcases h with h | h
      · exact Or.inl h
      · rcases h with ⟨e', he', hgood', heq'⟩
        rcases List.mem_cons.mp he' with h3 | h3
        · exact absurd (h3 ▸ hgood') h1
        · exact Or.inr ⟨e', h3, hgood', heq'⟩

theorem stdGo_ids_nodup (entries : List BibEntry) :
    ∀ processed : List Str,
      ((stdGo processed entries).map BibEntry.ID).Nodup ∧
      ∀ ce ∈ stdGo processed entries, ∃ i, ce.ID = some i ∧ ¬ i ∈ processed := by
  induction entries with
  | nil => intro processed; simp [stdGo]
  | cons e rest ih =>
    intro processed
    by_cases h1 : truthy e.ID ∧ truthy e.ENTRYTYPE
    · by_cases h2 : e.ID.getD [] ∈ processed
      · rw [stdGo, if_pos h1, if_pos h2]
        exact ih processed
      · rw [stdGo, if_pos h1, if_neg h2]
        obtain ⟨s, hs, hgd⟩ := truthy_some e.ID h1.1
        have hmk : (mkCanonical e).ID = e.ID := rfl
        obtain ⟨ihn, ihm⟩ := ih (e.ID.getD [] :: processed)
        constructor
        · rw [List.map_cons]
          apply List.nodup_cons.mpr
          refine ⟨?_, ihn⟩
          intro hmem
          rcases List.mem_map.mp hmem with ⟨ce, hce, hid⟩
          obtain ⟨i, hi, hnotin⟩ := ihm ce hce
          rw [hmk, hs] at hid
          rw [hi] at hid
          have : i = s := by simpa using hid
          apply hnotin
          rw [this, hgd]
          exact List.mem_cons_self _ _
        · intro ce hce
          rcases List.mem_cons.mp hce with h3 | h3
          · refine ⟨s, by rw [h3, hmk, hs], ?_⟩
            intro hin
            apply h2
            rw [hgd]
            exact hin
          · obtain ⟨i, hi, hnotin⟩ := ihm ce h3
            exact ⟨i, hi, fun hin => hnotin (List.mem_cons_of_mem _ hin)⟩
    · rw [stdGo, if_neg h1]
      exact ih processed

theorem stdGo_length_all_good (l : List BibEntry) :
    ∀ processed : List Str,
      (∀ e ∈ l, truthy e.ID ∧ truthy e.ENTRYTYPE) →
      (l.map BibEntry.ID).Nodup →
      (∀ e ∈ l, ¬ e.ID.getD [] ∈ processed) →
      (stdGo processed l).length = l.length := by
  induction l with
  | nil => intro processed _ _ _; rfl
  | cons e rest ih =>
    intro processed hgood hnd hfresh
    have h1 : truthy e.ID ∧ truthy e.ENTRYTYPE := hgood e (by simp)
    have h2 : ¬ e.ID.getD [] ∈ processed := hfresh e (by simp)
    rw [stdGo, if_pos h1, if_neg h2]
    have hid : e.ID ∉ rest.map BibEntry.ID := (List.nodup_cons.mp (by simpa using hnd)).1
    have hnd' : (rest.map BibEntry.ID).Nodup := (List.nodup_cons.mp (by simpa using hnd)).2
    have hfresh' : ∀ e' ∈ rest, ¬ e'.ID.getD [] ∈ (e.ID.getD [] :: processed) := by
      intro e' he' hmem
      obtain ⟨s, hs, hgd⟩ := truthy_some e.ID h1.1
      obtain ⟨s', hs', hgd'⟩ := truthy_some e'.ID (hgood e' (List.mem_cons_of_mem _ he')).1
      rcases List.mem_cons.mp hmem with h3 | h3
      · apply hid
        have : e'.ID = e.ID := by rw [hs, hs', ← hgd, ← hgd', h3]
        rw [← this]
        exact List.mem_map_of_mem BibEntry.ID he'
      · exact hfresh e' (List.mem_cons_of_mem _ he') h3
    rw [List.length_cons, List.length_cons,
      ih _ (fun e' he' => hgood e' (List.mem_cons_of_mem _ he')) hnd' hfresh']

/-! ### Claims C6, C8: the standardizer -/

/-- C6: in a batch containing two raw records sharing one truthy
identifier (the first of them well formed), dropping the later
occurrence does not change the standardizer's output — the later
occurrence is skipped by the duplicate-identifier guard, and the one
canonical record for that identifier is built from the first
occurrence — and the output never contains two records with the same
identifier. -/
theorem c6_theorem (pre mid post : List BibEntry) (e1 e2 : BibEntry)
    (h1 : truthy e1.ID = true) (h2 : truthy e1.ENTRYTYPE = true)
    (h3 : e2.ID = e1.ID) :
    standardize_bibtex_file (pre ++ e1 :: mid ++ e2 :: post) =
      standardize_bibtex_file (pre ++ e1 :: mid ++ post) ∧
    ((standardize_bibtex_file (pre ++ e1 :: mid ++ e2 :: post)).map BibEntry.ID).Nodup := by
  have hassoc1 : pre ++ e1 :: mid ++ e2 :: post = (pre ++ e1 :: mid) ++ e2 :: post := by
    simp [List.append_assoc]
  have hassoc2 : pre ++ e1 :: mid ++ post = (pre ++ e1 :: mid) ++ post := by
    simp [List.append_assoc]
  constructor
  · rw [hassoc1, hassoc2]
    unfold standardize_bibtex_file
    apply stdGo_skip_dup
    · rw [h3]
      exact h1
    · exact Or.inr ⟨e1, by simp, ⟨h1, h2⟩, h3.symm⟩
  · exact (stdGo_ids_nodup _ []).1

/-- C6 witness: concrete two-record batch sharing one identifier. -/
theorem c6_witness :
    standardize_bibtex_file ([] ++ w6e1 :: [] ++ w6e2 :: []) =
      standardize_bibtex_file ([] ++ w6e1 :: [] ++ []) ∧
    ((standardize_bibtex_file ([] ++ w6e1 :: [] ++ w6e2 :: [])).map BibEntry.ID).Nodup :=
  c6_theorem [] [] [] w6e1 w6e2 (by decide) (by decide) (by decide)

/-- C8: a raw record whose identifier or type tag is missing is
skipped and the rest of the batch is processed unchanged; when the
rest of the batch is well formed with distinct identifiers, the
canonical record count is one less than the input count. -/
theorem c8_theorem (pre post : List BibEntry) (bad : BibEntry)
    (hbad : ¬ (truthy bad.ID ∧ truthy bad.ENTRYTYPE))
    (hgood : ∀ e ∈ pre ++ post, truthy e.ID ∧ truthy e.ENTRYTYPE)
    (hnd : ((pre ++ post).map BibEntry.ID).Nodup) :
    standardize_bibtex_file (pre ++ bad :: post) = standardize_bibtex_file (pre ++ post) ∧
    (standardize_bibtex_file (pre ++ bad :: post)).length = (pre ++ bad :: post).length - 1 := by
  have heq : standardize_bibtex_file (pre ++ bad :: post) =
      standardize_bibtex_file (pre ++ post) :=
    stdGo_skip_bad pre [] bad post hbad
  refine ⟨heq, ?_⟩
  rw [heq]
  unfold standardize_bibtex_file
  rw [stdGo_length_all_good (pre ++ post) [] hgood hnd (by simp)]
  simp [List.length_append]

/-- C8 witness: concrete three-record batch whose middle record lacks
a type tag. -/
theorem c8_witness :
    standardize_bibtex_file ([w8p] ++ w8bad :: [w8q]) =
      standardize_bibtex_file ([w8p] ++ [w8q]) ∧
    (standardize_bibtex_file ([w8p] ++ w8bad :: [w8q])).length =
      ([w8p] ++ w8bad :: [w8q]).length - 1 :=
  c8_theorem [w8p] [w8q] w8bad (by decide) (by decide) (by decide)

/-! ### Character-level lemmas -/

theorem char_eq_iff_toNat (a b : Char) : a = b ↔ a.toNat = b.toNat :=
  ⟨fun h => congrArg Char.toNat h, fun h => Char.eq_of_val_eq (UInt32.ext h)⟩

theorem char_le_iff_toNat (a b : Char) : a ≤ b ↔ a.toNat ≤ b.toNat := Iff.rfl

theorem char_ne_of_toNat_ne (x d : Char) (h : x.toNat ≠ d.toNat) : ¬ x = d :=
  fun he => h ((char_eq_iff_toNat _ _).mp he)

theorem pyLower_toNat_upper (c : Char) (h : 'A' ≤ c ∧ c ≤ 'Z') :
    (pyLower c).toNat = c.toNat + 32 := by
  have h1 : 65 ≤ c.toNat := (char_le_iff_toNat 'A' c).mp h.1
  have h2 : c.toNat ≤ 90 := (char_le_iff_toNat c 'Z').mp h.2
  have hv : (c.toNat + 32).isValidChar := Or.inl (by omega)
  rw [pyLower, if_pos h, Char.ofNat, dif_pos hv]
  rfl

theorem pyLower_eq_self (c : Char) (h : ¬ ('A' ≤ c ∧ c ≤ 'Z')) : pyLower c = c := by
  rw [pyLower, if_neg h]

theorem upper_toNat (c : Char) (h : 'A' ≤ c ∧ c ≤ 'Z') :
    65 ≤ c.toNat ∧ c.toNat ≤ 90 :=
  ⟨(char_le_iff_toNat 'A' c).mp h.1, (char_le_iff_toNat c 'Z').mp h.2⟩

theorem isSpace_false_toNat (x : Char) (h : 33 ≤ x.toNat) : isSpace x = false := by
  simp only [isSpace, Bool.or_eq_false_iff, decide_eq_false_iff_not]
  refine ⟨⟨⟨⟨⟨?_, ?_⟩, ?_⟩, ?_⟩, ?_⟩, ?_⟩
  · exact char_ne_of_toNat_ne x ' ' (by rw [show (' ').toNat = 32 from rfl]; omega)
  · exact char_ne_of_toNat_ne x '\t' (by rw [show ('\t').toNat = 9 from rfl]; omega)
  · exact char_ne_of_toNat_ne x '\n' (by rw [show ('\n').toNat = 10 from rfl]; omega)
  · exact char_ne_of_toNat_ne x '\r' (by rw [show ('\r').toNat = 13 from rfl]; omega)
  · exact char_ne_of_toNat_ne x '\x0b' (by rw [show ('\x0b').toNat = 11 from rfl]; omega)
  · exact char_ne_of_toNat_ne x '\x0c' (by rw [show ('\x0c').toNat = 12 from rfl]; omega)

theorem isDigit_false_toNat (x : Char) (h : 58 ≤ x.toNat) : isDigitChar x = false := by
  have hd : decide (x ≤ '9') = false := by
    apply decide_eq_false
    intro hh
    have := (char_le_iff_toNat x '9').mp hh
    rw [show ('9').toNat = 57 from rfl] at this
    omega
  simp [isDigitChar, hd]

theorem isDigit_toNat (c : Char) (h : isDigitChar c = true) :
    48 ≤ c.toNat ∧ c.toNat ≤ 57 := by
  simp only [isDigitChar, Bool.and_eq_true, decide_eq_true_eq] at h
  constructor
  · have := (char_le_iff_toNat '0' c).mp h.1
    rw [show ('0').toNat = 48 from rfl] at this
    exact this
  · have := (char_le_iff_toNat c '9').mp h.2
    rw [show ('9').toNat = 57 from rfl] at this
    exact this

theorem pyLower_isSpace (c : Char) : isSpace (pyLower c) = isSpace c := by
  by_cases h : 'A' ≤ c ∧ c ≤ 'Z'
  · obtain ⟨h1, h2⟩ := upper_toNat c h
    have hx := pyLower_toNat_upper c h
    rw [isSpace_false_toNat _ (by omega), isSpace_false_toNat _ (by omega)]
  · rw [pyLower_eq_self c h]

theorem pyLower_isDigit (c : Char) : isDigitChar (pyLower c) = isDigitChar c := by
  by_cases h : 'A' ≤ c ∧ c ≤ 'Z'
  · obtain ⟨h1, h2⟩ := upper_toNat c h
    have hx := pyLower_toNat_upper c h
    rw [isDigit_false_toNat _ (by omega), isDigit_false_toNat _ (by omega)]
  · rw [pyLower_eq_self c h]

theorem pyLower_isClass (c : Char) : isClassChar (pyLower c) = isClassChar c := by
  by_cases h : 'A' ≤ c ∧ c ≤ 'Z'
  · obtain ⟨h1, h2⟩ := upper_toNat c h
    have hx := pyLower_toNat_upper c h
    have ha : 'a' ≤ pyLower c :=
      (char_le_iff_toNat _ _).mpr (by rw [hx, show ('a').toNat = 97 from rfl]; omega)
    have hz : pyLower c ≤ 'z' :=
      (char_le_iff_toNat _ _).mpr (by rw [hx, show ('z').toNat = 122 from rfl]; omega)
    simp [isClassChar, ha, hz, h.1, h.2]
  · rw [pyLower_eq_self c h]

theorem pyLower_eq_iff (c d : Char)
    (hd : d.toNat < 65 ∨ (90 < d.toNat ∧ d.toNat < 97) ∨ 122 < d.toNat) :
    pyLower c = d ↔ c = d := by
  by_cases h : 'A' ≤ c ∧ c ≤ 'Z'
  · obtain ⟨h1, h2⟩ := upper_toNat c h
    have hx := pyLower_toNat_upper c h
    exact iff_of_false (char_ne_of_toNat_ne _ d (by omega))
      (char_ne_of_toNat_ne _ d (by omega))
  · rw [pyLower_eq_self c h]

theorem pyLower_idem (c : Char) : pyLower (pyLower c) = pyLower c := by
  by_cases h : 'A' ≤ c ∧ c ≤ 'Z'
  · obtain ⟨h1, h2⟩ := upper_toNat c h
    have hx := pyLower_toNat_upper c h
    apply pyLower_eq_self
    intro hh
    have := upper_toNat _ hh
    omega
  · rw [pyLower_eq_self c h, pyLower_eq_self c h]

theorem isClass_not_space (c : Char) (h : isClassChar c = true) : isSpace c = false := by
  simp only [isClassChar, Bool.or_eq_true, Bool.and_eq_true, decide_eq_true_eq] at h
  rcases h with ((((((((((h | h) | h) | h) | h) | h) | h) | h) | h) | h) | h)
  · apply isSpace_false_toNat
    have := (char_le_iff_toNat 'a' c).mp h.1
    rw [show ('a').toNat = 97 from rfl] at this
    omega
  · apply isSpace_false_toNat
    have := (char_le_iff_toNat 'A' c).mp h.1
    rw [show ('A').toNat = 65 from rfl] at this
    omega
  · apply isSpace_false_toNat
    have := (char_le_iff_toNat '0' c).mp h.1
    rw [show ('0').toNat = 48 from rfl] at this
    omega
  all_goals subst h
  all_goals rfl

/-! ### String-level lemmas: lowercasing and stripping -/

theorem lowerStr_fix_mem (l : Str) : ∀ c ∈ lowerStr l, pyLower c = c := by
  intro c hc
  rcases List.mem_map.mp hc with ⟨c0, _, rfl⟩
  exact pyLower_idem c0

theorem lowerStr_of_fix (l : Str) (h : ∀ c ∈ l, pyLower c = c) : lowerStr l = l :=
  (List.map_congr_left h).trans (List.map_id l)

theorem lowerStr_idem (l : Str) : lowerStr (lowerStr l) = lowerStr l :=
  lowerStr_of_fix _ (lowerStr_fix_mem l)

theorem strip_lower_comm (l : Str) : strip (lowerStr l) = lowerStr (strip l) := by
  have hfun : isSpace ∘ pyLower = isSpace := funext pyLower_isSpace
  unfold strip lowerStr
  rw [List.dropWhile_map, hfun, ← List.map_reverse, List.dropWhile_map, hfun,
    ← List.map_reverse]

theorem dropWhile_head_false (p : Char → Bool) (l : Str) (c : Char) (t : Str)
    (h : l.dropWhile p = c :: t) : p c = false := by
  induction l with
  | nil => simp at h
  | cons a l ih =>
    rw [List.dropWhile_cons] at h
    cases hpa : p a
    · rw [hpa] at h
      simp only [Bool.false_eq_true, if_false] at h
      injection h with h1 h2
      rw [← h1]
      exact hpa
    · rw [hpa] at h
      simp only [if_true] at h
      exact ih h

theorem dropWhile_self_of_all (p : Char → Bool) (l : Str)
    (h : ∀ c ∈ l, p c = false) : l.dropWhile p = l := by
  cases l with
  | nil => rfl
  | cons a t =>
    rw [List.dropWhile_cons, h a (by simp)]
    simp

theorem strip_of_no_space (l : Str) (h : ∀ c ∈ l, isSpace c = false) : strip l = l := by
  unfold strip
  rw [dropWhile_self_of_all isSpace l h,
    dropWhile_self_of_all isSpace l.reverse fun c hc => h c (List.mem_reverse.mp hc),
    List.reverse_reverse]

theorem dropWhile_twice (p : Char → Bool) (l : Str) :
    (l.dropWhile p).dropWhile p = l.dropWhile p := by
  cases hdw : l.dropWhile p with
  | nil => rfl
  | cons c t =>
    have hc := dropWhile_head_false p l c t hdw
    rw [List.dropWhile_cons, hc]
    simp

theorem dropWhile_strip_decomp (l : Str) :
    l.dropWhile isSpace =
      strip l ++ ((l.dropWhile isSpace).reverse.takeWhile isSpace).reverse := by
  have h1 : (l.dropWhile isSpace).reverse.takeWhile isSpace ++
      (l.dropWhile isSpace).reverse.dropWhile isSpace = (l.dropWhile isSpace).reverse :=
    List.takeWhile_append_dropWhile _ _
  calc l.dropWhile isSpace = (l.dropWhile isSpace).reverse.reverse := by
        rw [List.reverse_reverse]
    _ = ((l.dropWhile isSpace).reverse.takeWhile isSpace ++
          (l.dropWhile isSpace).reverse.dropWhile isSpace).reverse := by rw [h1]
    _ = strip l ++ ((l.dropWhile isSpace).reverse.takeWhile isSpace).reverse := by
        rw [List.reverse_append]
        rfl

theorem strip_dropWhile_fix (l : Str) : (strip l).dropWhile isSpace = strip l := by
  obtain ⟨w, hw⟩ : ∃ w, l.dropWhile isSpace = strip l ++ w := ⟨_, dropWhile_strip_decomp l⟩
  cases hB : strip l with
  | nil => rfl
  | cons c t =>
    rw [hB] at hw
    have hA : l.dropWhile isSpace = c :: (t ++ w) := by rw [hw]; rfl
    have hc := dropWhile_head_false isSpace l c _ hA
    rw [List.dropWhile_cons, hc]
    simp

theorem strip_idem (l : Str) : strip (strip l) = strip l := by
  rw [show strip (strip l) =
      (((strip l).dropWhile isSpace).reverse.dropWhile isSpace).reverse from rfl]
  rw [strip_dropWhile_fix l]
  rw [show (strip l).reverse = (l.dropWhile isSpace).reverse.dropWhile isSpace from by
    rw [show strip l = ((l.dropWhile isSpace).reverse.dropWhile isSpace).reverse from rfl,
      List.reverse_reverse]]
  rw [dropWhile_twice]
  rfl

/-! ### Substring (infix) lemmas -/

theorem revInf (m l : Str) (h : m <:+: l) : m.reverse <:+: l.reverse := by
  obtain ⟨s, t, hst⟩ := h
  refine ⟨t.reverse, s.reverse, ?_⟩
  rw [← hst]
  simp [List.reverse_append, List.append_assoc]

theorem dropWhileKeeps (m : Str) (hne : m ≠ []) (hns : ∀ c ∈ m, isSpace c = false) :
    ∀ l : Str, m <:+: l → m <:+: l.dropWhile isSpace := by
  intro l h
  obtain ⟨s, t, hst⟩ := h
  induction s generalizing l with
  | nil =>
    simp only [List.nil_append] at hst
    subst hst
    cases m with
    | nil => exact absurd rfl hne
    | cons c m' =>
      rw [List.cons_append, List.dropWhile_cons, hns c (by simp)]
      exact ⟨[], t, by simp⟩
  | cons a s ih =>
    rw [List.cons_append, List.cons_append] at hst
    subst hst
    rw [List.dropWhile_cons]
    cases hpa : isSpace a
    · simp only [Bool.false_eq_true, if_false]
      exact ⟨a :: s, t, rfl⟩
    · simp only [if_true]
      exact ih _ rfl

theorem stripKeeps (m l : Str) (hne : m ≠ []) (hns : ∀ c ∈ m, isSpace c = false)
    (h : m <:+: l) : m <:+: strip l := by
  have h1 := dropWhileKeeps m hne hns l h
  have h2 := revInf m _ h1
  have h3 := dropWhileKeeps m.reverse (by simpa using hne)
    (fun c hc => hns c (List.mem_reverse.mp hc)) _ h2
  have h4 := revInf _ _ h3
  rw [List.reverse_reverse] at h4
  exact h4

theorem strip_sub (l : Str) : strip l <:+: l := by
  refine ⟨l.takeWhile isSpace, ((l.dropWhile isSpace).reverse.takeWhile isSpace).reverse, ?_⟩
  rw [List.append_assoc, ← dropWhile_strip_decomp l]
  exact List.takeWhile_append_dropWhile isSpace l

theorem mapInf (f : Char → Char) (m l : Str) (h : m <:+: l) :
    m.map f <:+: l.map f := by
  obtain ⟨s, t, hst⟩ := h
  refine ⟨s.map f, t.map f, ?_⟩
  rw [← hst]
  simp [List.map_append]

theorem mapInfRev (f : Char → Char) (m' l : Str) (h : m' <:+: l.map f) :
    ∃ r, r <:+: l ∧ r.map f = m' := by
  obtain ⟨s, t, hst⟩ := h
  obtain ⟨l1, l23, hl, hm1, hm23⟩ := List.map_eq_append_iff.mp
    (show l.map f = s ++ (m' ++ t) by rw [← hst]; simp [List.append_assoc])
  obtain ⟨l2, l3, hl', hm2, hm3⟩ := List.map_eq_append_iff.mp hm23
  refine ⟨l2, ⟨l1, l3, ?_⟩, hm2⟩
  rw [hl, hl']
  simp [List.append_assoc]

/-! ### Lemmas on the identifier form -/

theorem isDoiForm_decomp (m : Str) (h : isDoiForm m = true) :
    ∃ (k : Nat) (ds rest : Str), k ∈ [4, 5, 6, 7, 8, 9] ∧
      m = '1' :: '0' :: '.' :: (ds ++ '/' :: rest) ∧
      ds.length = k ∧ ds.all isDigitChar = true ∧
      rest ≠ [] ∧ rest.all isClassChar = true := by
  match m with
  | [] => simp [isDoiForm] at h
  | [c1] => simp [isDoiForm] at h
  | [c1, c2] => simp [isDoiForm] at h
  | c1 :: c2 :: c3 :: l3 =>
    simp only [isDoiForm, Bool.and_eq_true, decide_eq_true_eq, List.any_eq_true] at h
    obtain ⟨⟨⟨h1, h2⟩, h3⟩, k, hk, hcheck⟩ := h
    subst h1; subst h2; subst h3
    cases hdrop : l3.drop k with
    | nil =>
      rw [hdrop] at hcheck
      simp at hcheck
    | cons c rest =>
      rw [hdrop] at hcheck
      simp only [Bool.and_eq_true, decide_eq_true_eq, Bool.not_eq_true'] at hcheck
      obtain ⟨⟨hlen, hdig⟩, ⟨hc, hne⟩, hcls⟩ := hcheck
      subst hc
      refine ⟨k, l3.take k, rest, ?_, ?_, hlen, hdig, ?_, hcls⟩
      · simpa using hk
      · conv_lhs => rw [← List.take_append_drop k l3, hdrop]
      · exact List.isEmpty_eq_false.mp hne

theorem isDoiForm_build (k : Nat) (ds rest : Str) (hk : k ∈ [4, 5, 6, 7, 8, 9])
    (hlen : ds.length = k) (hdig : ds.all isDigitChar = true)
    (hne : rest ≠ []) (hcls : rest.all isClassChar = true) :
    isDoiForm ('1' :: '0' :: '.' :: (ds ++ '/' :: rest)) = true := by
  have htake : (ds ++ '/' :: rest).take k = ds := by
    rw [← hlen]
    exact List.take_left ds _
  have hdrop : (ds ++ '/' :: rest).drop k = '/' :: rest := by
    rw [← hlen]
    exact List.drop_left ds _
  simp only [isDoiForm, Bool.and_eq_true, decide_eq_true_eq, List.any_eq_true]
  refine ⟨by simp, k, by simpa using hk, ?_⟩
  rw [htake, hdrop]
  simp [hlen, hdig, hcls, List.isEmpty_eq_false.mpr hne]

theorem isDoiForm_ne_nil (m : Str) (h : isDoiForm m = true) : m ≠ [] := by
  obtain ⟨k, ds, rest, _, hm, _⟩ := isDoiForm_decomp m h
  rw [hm]
  simp

theorem isDoiForm_no_space (m : Str) (h : isDoiForm m = true) :
    ∀ c ∈ m, isSpace c = false := by
  obtain ⟨k, ds, rest, hk, hm, hlen, hdig, hne, hcls⟩ := isDoiForm_decomp m h
  intro c hc
  rw [hm] at hc
  simp only [List.mem_cons, List.mem_append] at hc
  rcases hc with rfl | hc
  · rfl
  rcases hc with rfl | hc
  · rfl
  rcases hc with rfl | hc
  · rfl
  rcases hc with hc | hc
  · have := isDigit_toNat c (List.all_eq_true.mp hdig c hc)
    exact isSpace_false_toNat c (by omega)
  rcases hc with rfl | hc
  · rfl
  · exact isClass_not_space c (List.all_eq_true.mp hcls c hc)

theorem all_map_congr (p : Char → Bool) (f : Char → Char)
    (hf : ∀ c, p (f c) = p c) (l : Str) : (l.map f).all p = l.all p := by
  induction l with
  | nil => rfl
  | cons c t ih => simp [List.all_cons, hf c, ih]

theorem isDoiForm_lower (m : Str) : isDoiForm (lowerStr m) = isDoiForm m := by
  have hone : ∀ c : Char, pyLower c = '1' ↔ c = '1' :=
    fun c => pyLower_eq_iff c '1' (Or.inl (by rw [show ('1').toNat = 49 from rfl]; omega))
  have hzero : ∀ c : Char, pyLower c = '0' ↔ c = '0' :=
    fun c => pyLower_eq_iff c '0' (Or.inl (by rw [show ('0').toNat = 48 from rfl]; omega))
  have hdot : ∀ c : Char, pyLower c = '.' ↔ c = '.' :=
    fun c => pyLower_eq_iff c '.' (Or.inl (by rw [show ('.').toNat = 46 from rfl]; omega))
  have hslash : ∀ c : Char, pyLower c = '/' ↔ c = '/' :=
    fun c => pyLower_eq_iff c '/' (Or.inl (by rw [show ('/').toNat = 47 from rfl]; omega))
  by_cases h : isDoiForm m = true
  · rw [h]
    obtain ⟨k, ds, rest, hk, hm, hlen, hdig, hne, hcls⟩ := isDoiForm_decomp m h
    have hmap : lowerStr m =
        '1' :: '0' :: '.' :: (ds.map pyLower ++ '/' :: rest.map pyLower) := by
      rw [hm]
      simp only [lowerStr, List.map_cons, List.map_append]
      rw [(hone _).mpr rfl, (hzero _).mpr rfl, (hdot _).mpr rfl, (hslash _).mpr rfl]
    rw [hmap]
    apply isDoiForm_build k
    · exact hk
    · rw [List.length_map]
      exact hlen
    · rw [all_map_congr isDigitChar pyLower pyLower_isDigit]
      exact hdig
    · intro hnil
      exact hne (List.map_eq_nil_iff.mp hnil)
    · rw [all_map_congr isClassChar pyLower pyLower_isClass]
      exact hcls
  · have h' : isDoiForm m = false := by
      cases hh : isDoiForm m
      · rfl
      · exact absurd hh h
    rw [h']
    by_contra hcon
    have hlow : isDoiForm (lowerStr m) = true := by
      cases hh : isDoiForm (lowerStr m)
      · rw [hh] at hcon
        exact absurd rfl hcon
      · rfl
    obtain ⟨k, ds, rest, hk, hm, hlen, hdig, hne, hcls⟩ := isDoiForm_decomp _ hlow
    apply h
    match m, hm with
    | c1 :: c2 :: c3 :: l3, hm =>
      simp only [lowerStr, List.map_cons, List.cons.injEq] at hm
      obtain ⟨h1, h2, h3, h4⟩ := hm
      obtain ⟨d0, l4, hl, hmd0, hml4⟩ := List.map_eq_append_iff.mp h4
      cases l4 with
      | nil => simp at hml4
      | cons c0 r0 =>
        simp only [List.map_cons, List.cons.injEq] at hml4
        obtain ⟨hc0, hr0⟩ := hml4
        have hc1 : c1 = '1' := (hone c1).mp h1
        have hc2 : c2 = '0' := (hzero c2).mp h2
        have hc3 : c3 = '.' := (hdot c3).mp h3
        have hc0' : c0 = '/' := (hslash c0).mp hc0
        subst hc1; subst hc2; subst hc3; subst hc0'; subst hl
        apply isDoiForm_build k
        · exact hk
        · rw [← hlen, ← hmd0, List.length_map]
        · rw [← all_map_congr isDigitChar pyLower pyLower_isDigit, hmd0]
          exact hdig
        · intro hnil
          rw [hnil] at hr0
          simp at hr0
          exact hne hr0
        · rw [← all_map_congr isClassChar pyLower pyLower_isClass, hr0]
          exact hcls

/-! ### Lemmas on the greedy matcher -/

theorem takeWhile_append_all (p : Char → Bool) (run b : Str)
    (h : ∀ c ∈ run, p c = true) :
    (run ++ b).takeWhile p = run ++ b.takeWhile p := by
  induction run with
  | nil => rfl
  | cons c t ih =>
    rw [List.cons_append, List.takeWhile_cons, h c (by simp)]
    simp only [if_true, List.cons_append]
    rw [ih fun c' hc' => h c' (by simp [hc'])]

theorem tryK_sound (l3 : Str) (k : Nat) (m0 : Str) (h : tryK l3 k = some m0) :
    (l3.take k).length = k ∧ (l3.take k).all isDigitChar = true ∧
    ∃ rest, l3.drop k = '/' :: rest ∧ rest.takeWhile isClassChar ≠ [] ∧
      m0 = '1' :: '0' :: '.' :: (l3.take k ++ '/' :: rest.takeWhile isClassChar) := by
  by_cases hcond : (l3.take k).length = k ∧ (l3.take k).all isDigitChar
  · cases hdrop : l3.drop k with
    | nil =>
      simp only [tryK, hdrop] at h
      rw [if_pos hcond] at h
      simp at h
    | cons c rest =>
      simp only [tryK, hdrop] at h
      rw [if_pos hcond] at h
      by_cases hc : c = '/'
      · subst hc
        rw [if_pos rfl] at h
        by_cases hrun : (rest.takeWhile isClassChar).isEmpty
        · rw [if_pos hrun] at h
          simp at h
        · rw [if_neg hrun] at h
          refine ⟨hcond.1, hcond.2, rest, rfl, ?_, ?_⟩
          · intro hnil
            apply hrun
            rw [hnil]
            rfl
          · injection h with h'
            rw [← h']
      · rw [if_neg hc] at h
        simp at h
  · simp only [tryK] at h
    rw [if_neg hcond] at h
    simp at h

theorem tryK_isSome (l3 : Str) (k : Nat) (ds rest : Str)
    (hl3 : l3 = ds ++ '/' :: rest) (hlen : ds.length = k)
    (hdig : ds.all isDigitChar = true)
    (hrun : rest.takeWhile isClassChar ≠ []) : (tryK l3 k).isSome := by
  subst hl3
  subst hlen
  have htake : (ds ++ '/' :: rest).take ds.length = ds := List.take_left ds _
  have hdrop : (ds ++ '/' :: rest).drop ds.length = '/' :: rest := List.drop_left ds _
  simp only [tryK, htake, hdrop]
  simp [hdig, List.isEmpty_eq_false.mpr hrun]

theorem tryKs_isSome (l3 : Str) (ks : List Nat) (k : Nat) (hk : k ∈ ks)
    (h : (tryK l3 k).isSome) : (tryKs l3 ks).isSome := by
  induction ks with
  | nil => simp at hk
  | cons k' ks ih =>
    simp only [tryKs]
    cases htry : tryK l3 k' with
    | some m => simp
    | none =>
      rcases List.mem_cons.mp hk with rfl | hk'
      · rw [htry] at h
        simp at h
      · exact ih hk'

theorem tryKs_sound (l3 : Str) (ks : List Nat) (m0 : Str)
    (h : tryKs l3 ks = some m0) : ∃ k ∈ ks, tryK l3 k = some m0 := by
  induction ks with
  | nil => simp [tryKs] at h
  | cons k' ks ih =>
    simp only [tryKs] at h
    cases htry : tryK l3 k' with
    | some m =>
      rw [htry] at h
      injection h with h'
      exact ⟨k', by simp, by rw [htry, h']⟩
    | none =>
      rw [htry] at h
      obtain ⟨k, hk, hkk⟩ := ih h
      exact ⟨k, List.mem_cons_of_mem _ hk, hkk⟩

theorem matchAt_sound (l : Str) (m0 : Str) (h : matchAt l = some m0) :
    isDoiForm m0 = true ∧ ∃ t, m0 ++ t = l := by
  match l with
  | [] => simp [matchAt] at h
  | [c1] => simp [matchAt] at h
  | [c1, c2] => simp [matchAt] at h
  | c1 :: c2 :: c3 :: l3 =>
    simp only [matchAt] at h
    by_cases hc : c1 = '1' ∧ c2 = '0' ∧ c3 = '.'
    · rw [if_pos hc] at h
      obtain ⟨rfl, rfl, rfl⟩ := hc
      obtain ⟨k, hk, htryk⟩ := tryKs_sound l3 _ m0 h
      obtain ⟨hlen, hdig, rest, hdrop, hrun, hm0⟩ := tryK_sound l3 k m0 htryk
      constructor
      · rw [hm0]
        refine isDoiForm_build k _ _ ?_ hlen hdig hrun
          (List.all_eq_true.mpr fun c hc => List.mem_takeWhile_imp hc)
        simp only [List.mem_cons, List.not_mem_nil, or_false] at hk ⊢
        tauto
      · refine ⟨rest.dropWhile isClassChar, ?_⟩
        rw [hm0]
        simp only [List.cons_append, List.append_assoc, List.cons.injEq, true_and]
        rw [List.takeWhile_append_dropWhile]
        conv_rhs => rw [← List.take_append_drop k l3, hdrop]
    · rw [if_neg hc] at h
      simp at h

theorem matchAt_isSome_pre (m0 b : Str) (h : isDoiForm m0 = true) :
    (matchAt (m0 ++ b)).isSome := by
  obtain ⟨k, ds, rest, hk, hm, hlen, hdig, hne, hcls⟩ := isDoiForm_decomp m0 h
  rw [hm]
  have hsh : ('1' :: '0' :: '.' :: (ds ++ '/' :: rest)) ++ b =
      '1' :: '0' :: '.' :: (ds ++ '/' :: (rest ++ b)) := by
    simp [List.cons_append, List.append_assoc]
  rw [hsh]
  simp only [matchAt]
  rw [if_pos (by simp)]
  apply tryKs_isSome _ _ k
  · simp only [List.mem_cons, List.not_mem_nil, or_false] at hk ⊢
    tauto
  · apply tryK_isSome _ k ds (rest ++ b) rfl hlen hdig
    rw [takeWhile_append_all isClassChar rest b (List.all_eq_true.mp hcls)]
    intro hnil
    rw [List.append_eq_nil] at hnil
    exact hne hnil.1

theorem searchDoi_sound (l : Str) (m0 : Str) (h : searchDoi l = some m0) :
    isDoiForm m0 = true ∧ m0 <:+: l := by
  induction l with
  | nil => simp [searchDoi] at h
  | cons c cs ih =>
    simp only [searchDoi] at h
    cases hm : matchAt (c :: cs) with
    | some m =>
      rw [hm] at h
      injection h with h'
      subst h'
      obtain ⟨hform, t, ht⟩ := matchAt_sound _ _ hm
      exact ⟨hform, [], t, by simpa using ht⟩
    | none =>
      rw [hm] at h
      obtain ⟨hform, s, t, hst⟩ := ih h
      exact ⟨hform, c :: s, t, by rw [← hst]; rfl⟩

theorem searchDoi_complete (m l : Str) (h : isDoiForm m = true) (hinf : m <:+: l) :
    (searchDoi l).isSome := by
  obtain ⟨s, t, hst⟩ := hinf
  induction s generalizing l with
  | nil =>
    simp only [List.nil_append] at hst
    obtain ⟨k, ds, rest, hk, hm, _⟩ := isDoiForm_decomp m h
    subst hst
    rw [hm, List.cons_append, searchDoi]
    cases hmt : matchAt ('1' :: (('0' :: '.' :: (ds ++ '/' :: rest)) ++ t)) with
    | some m1 => simp
    | none =>
      have := matchAt_isSome_pre m t h
      rw [hm] at this
      rw [show ('1' :: '0' :: '.' :: (ds ++ '/' :: rest)) ++ t =
        '1' :: (('0' :: '.' :: (ds ++ '/' :: rest)) ++ t) from rfl, hmt] at this
      simp at this
  | cons a s ih =>
    rw [List.cons_append, List.cons_append] at hst
    subst hst
    rw [searchDoi]
    cases hmt : matchAt (a :: (s ++ m ++ t)) with
    | some m1 => simp
    | none => exact ih _ rfl

theorem tryK_gt_none (ds rest : Str) (k' : Nat) (hlt : ds.length < k') :
    tryK (ds ++ '/' :: rest) k' = none := by
  have hall : ((ds ++ '/' :: rest).take k').all isDigitChar = false := by
    rw [List.take_append_eq_append_take, List.take_of_length_le (le_of_lt hlt)]
    cases hj : k' - ds.length with
    | zero => omega
    | succ j =>
      rw [List.take_succ_cons, List.all_append]
      simp [List.all_cons, show isDigitChar '/' = false from rfl]
  simp only [tryK]
  rw [if_neg]
  intro hcond
  rw [hall] at hcond
  exact absurd hcond.2 (by simp)

theorem tryK_exact (ds rest : Str) (hdig : ds.all isDigitChar = true)
    (hne : rest ≠ []) (hcls : rest.all isClassChar = true) :
    tryK (ds ++ '/' :: rest) ds.length =
      some ('1' :: '0' :: '.' :: (ds ++ '/' :: rest)) := by
  have htake : (ds ++ '/' :: rest).take ds.length = ds := List.take_left ds _
  have hdrop : (ds ++ '/' :: rest).drop ds.length = '/' :: rest := List.drop_left ds _
  have hrw : rest.takeWhile isClassChar = rest :=
    List.takeWhile_eq_self_iff.mpr (List.all_eq_true.mp hcls)
  simp only [tryK, htake, hdrop]
  simp [hdig, hrw, List.isEmpty_eq_false.mpr hne]

theorem searchDoi_fix (m : Str) (h : isDoiForm m = true) : searchDoi m = some m := by
  obtain ⟨k, ds, rest, hk, hm, hlen, hdig, hne, hcls⟩ := isDoiForm_decomp m h
  subst hm
  have hgt : ∀ k', ds.length < k' → tryK (ds ++ '/' :: rest) k' = none :=
    fun k' h' => tryK_gt_none ds rest k' h'
  have hex := tryK_exact ds rest hdig hne hcls
  have hmatch : matchAt ('1' :: '0' :: '.' :: (ds ++ '/' :: rest)) =
      some ('1' :: '0' :: '.' :: (ds ++ '/' :: rest)) := by
    simp only [matchAt]
    rw [if_pos (by simp)]
    have hk' : k = 4 ∨ k = 5 ∨ k = 6 ∨ k = 7 ∨ k = 8 ∨ k = 9 := by simpa using hk
    rcases hk' with rfl | rfl | rfl | rfl | rfl | rfl
    · rw [hlen] at hex
      simp only [tryKs, hgt 9 (by omega), hgt 8 (by omega), hgt 7 (by omega),
        hgt 6 (by omega), hgt 5 (by omega), hex]
    · rw [hlen] at hex
      simp only [tryKs, hgt 9 (by omega), hgt 8 (by omega), hgt 7 (by omega),
        hgt 6 (by omega), hex]
    · rw [hlen] at hex
      simp only [tryKs, hgt 9 (by omega), hgt 8 (by omega), hgt 7 (by omega), hex]
    · rw [hlen] at hex
      simp only [tryKs, hgt 9 (by omega), hgt 8 (by omega), hex]
    · rw [hlen] at hex
      simp only [tryKs, hgt 9 (by omega), hex]
    · rw [hlen] at hex
      simp only [tryKs, hex]
  rw [show ('1' : Char) :: '0' :: '.' :: (ds ++ '/' :: rest) =
    '1' :: ('0' :: '.' :: (ds ++ '/' :: rest)) from rfl, searchDoi, hmatch]

theorem exists_form_iff_search (s : Str) :
    (∃ m, isDoiForm m = true ∧ m <:+: s) ↔
      (searchDoi (lowerStr (strip s))).isSome := by
  constructor
  · rintro ⟨m, hf, hinf⟩
    have hne : m ≠ [] := isDoiForm_ne_nil m hf
    have hns : ∀ c ∈ m, isSpace c = false := isDoiForm_no_space m hf
    have h1 : m <:+: strip s := stripKeeps m s hne hns hinf
    have h2 : lowerStr m <:+: lowerStr (strip s) := mapInf pyLower m _ h1
    have h3 : isDoiForm (lowerStr m) = true := by
      rw [isDoiForm_lower]
      exact hf
    exact searchDoi_complete _ _ h3 h2
  · intro h
    obtain ⟨m1, hm1⟩ := Option.isSome_iff_exists.mp h
    obtain ⟨hf1, hinf1⟩ := searchDoi_sound _ _ hm1
    obtain ⟨r, hrinf, hrmap⟩ := mapInfRev pyLower m1 (strip s) hinf1
    refine ⟨r, ?_, ?_⟩
    · rw [← isDoiForm_lower r, show lowerStr r = m1 from hrmap]
      exact hf1
    · obtain ⟨a1, b1, h1⟩ := hrinf
      obtain ⟨a2, b2, h2⟩ := strip_sub s
      exact ⟨a2 ++ a1, b1 ++ b2, by rw [← h2, ← h1]; simp [List.append_assoc]⟩

/-! ### Claims C3, C5, C7: the identifier normalizer -/

/-- C3, counterexample: the string `10.1234/ab` contains the substring
`10.1234/a`, which is of the identifier form, yet normalize_doi does
not return that substring — the greedy match extends it to
`10.1234/ab`. -/
theorem c3_counterexample :
    isDoiForm (str "10.1234/a") = true ∧
    (str "10.1234/a") <:+: (str "10.1234/ab") ∧
    normalize_doi (str "10.1234/ab") ≠ str "10.1234/a" := by decide

/-- C3, amended: for every string s containing a substring of the
identifier form, normalize_doi returns a substring of the trimmed
lowercased s that is itself exactly of that form, already lowercase —
namely the leftmost, greedily extended match, which need not coincide
with a given contained occurrence. -/
theorem c3_theorem (s m : Str) (hm : isDoiForm m = true) (hinf : m <:+: s) :
    isDoiForm (normalize_doi s) = true ∧
    normalize_doi s <:+: lowerStr (strip s) ∧
    lowerStr (normalize_doi s) = normalize_doi s := by
  have hsome := (exists_form_iff_search s).mp ⟨m, hm, hinf⟩
  obtain ⟨m1, hm1⟩ := Option.isSome_iff_exists.mp hsome
  have hne : m ≠ [] := isDoiForm_ne_nil m hm
  have hsne : ¬ s.isEmpty = true := by
    obtain ⟨a, b, hab⟩ := hinf
    intro hs
    rw [List.isEmpty_iff.mp hs] at hab
    rcases List.append_eq_nil.mp hab with ⟨hab1, _⟩
    rcases List.append_eq_nil.mp hab1 with ⟨_, hm2⟩
    exact hne hm2
  have hval : normalize_doi s = m1 := by
    rw [normalize_doi, if_neg hsne, hm1]
  obtain ⟨hf1, hinf1⟩ := searchDoi_sound _ _ hm1
  refine ⟨by rw [hval]; exact hf1, by rw [hval]; exact hinf1, ?_⟩
  rw [hval]
  apply lowerStr_of_fix
  intro c hc
  obtain ⟨a, b, hab⟩ := hinf1
  exact lowerStr_fix_mem (strip s) c (by rw [← hab]; simp [hc])

/-- C3 witness: the identifier form inside `x10.1234/ab`. -/
theorem c3_witness :
    isDoiForm (normalize_doi (str "x10.1234/ab")) = true ∧
    normalize_doi (str "x10.1234/ab") <:+: lowerStr (strip (str "x10.1234/ab")) ∧
    lowerStr (normalize_doi (str "x10.1234/ab")) = normalize_doi (str "x10.1234/ab") :=
  c3_theorem (str "x10.1234/ab") (str "10.1234/ab") (by decide) (by decide)

/-- C5: normalize_doi is idempotent.  A successful match is itself
matched unchanged (it is lowercase, whitespace-free, and the greedy
leftmost match of itself), and the fallback output is already stripped
and lowercased with no match in it. -/
theorem c5_theorem (s : Str) : normalize_doi (normalize_doi s) = normalize_doi s := by
  by_cases hs : s.isEmpty
  · rw [show normalize_doi s = [] from by rw [normalize_doi, if_pos hs]]
    rfl
  · cases hsearch : searchDoi (lowerStr (strip s)) with
    | some m =>
      have hval : normalize_doi s = m := by
        rw [normalize_doi, if_neg hs, hsearch]
      rw [hval]
      obtain ⟨hf, hinf⟩ := searchDoi_sound _ _ hsearch
      have hne := isDoiForm_ne_nil m hf
      have hfix : ∀ c ∈ m, pyLower c = c := by
        intro c hc
        obtain ⟨a, b, hab⟩ := hinf
        exact lowerStr_fix_mem (strip s) c (by rw [← hab]; simp [hc])
      have hstrip : strip m = m := strip_of_no_space m (isDoiForm_no_space m hf)
      have hlower : lowerStr m = m := lowerStr_of_fix m hfix
      rw [normalize_doi, if_neg (by simpa [List.isEmpty_eq_false] using hne),
        hstrip, hlower, searchDoi_fix m hf]
    | none =>
      have hval : normalize_doi s = lowerStr (strip s) := by
        rw [normalize_doi, if_neg hs, hsearch]
      rw [hval]
      by_cases ht : (lowerStr (strip s)).isEmpty
      · rw [normalize_doi, if_pos ht]
        exact (List.isEmpty_iff.mp ht).symm
      · have h1 : strip (lowerStr (strip s)) = lowerStr (strip s) := by
          rw [strip_lower_comm, strip_idem]
        have h2 : lowerStr (strip (lowerStr (strip s))) = lowerStr (strip s) := by
          rw [h1, lowerStr_idem]
        rw [normalize_doi, if_neg ht, h2, hsearch]

/-- C7: on a string no substring of which matches the identifier form,
normalize_doi falls back to the trimmed lowercased input and emits its
warning diagnostic; the empty string and an absent (None) value yield
the empty string. -/
theorem c7_theorem (s : Str) (h : ¬ ∃ m, isDoiForm m = true ∧ m <:+: s) :
    normalize_doi s = lowerStr (strip s) ∧
    (s ≠ [] → normalize_doi_warns s = true) ∧
    normalize_doi [] = [] ∧ normalize_doi_opt none = [] := by
  have hsearch : searchDoi (lowerStr (strip s)) = none := by
    cases hh : searchDoi (lowerStr (strip s)) with
    | none => rfl
    | some m => exact absurd ((exists_form_iff_search s).mpr (by simp [hh])) h
  refine ⟨?_, ?_, rfl, rfl⟩
  · by_cases hs : s.isEmpty
    · rw [normalize_doi, if_pos hs, List.isEmpty_iff.mp hs]
      rfl
    · rw [normalize_doi, if_neg hs, hsearch]
  · intro hne
    rw [normalize_doi_warns, hsearch]
    simp [List.isEmpty_eq_false.mpr hne]

/-- C7 witness: a string with no identifier-shaped substring. -/
theorem c7_witness :
    normalize_doi (str "  Hello World ") = lowerStr (strip (str "  Hello World ")) ∧
    (str "  Hello World " ≠ [] → normalize_doi_warns (str "  Hello World ") = true) ∧
    normalize_doi [] = [] ∧ normalize_doi_opt none = [] :=
  c7_theorem (str "  Hello World ") fun ⟨m, hf, hinf⟩ =>
    absurd ((exists_form_iff_search (str "  Hello World ")).mp ⟨m, hf, hinf⟩) (by decide)
